import Mathlib

/-!
Shallow embedding of the watchpost monitoring core (`src/watchpost/`) and
proofs about its hostname pipeline, scheduling strategies, result builder,
datasource cache keys, run state machine, and deduplicating executor.

Python strings are modelled as `List Char` (a Python `str` is a sequence of
unicode code points), machine integers do not occur on the modelled paths,
and raising code is modelled with `Except`.
-/

namespace Watchpost

/-! ## Hostname validation (`hostname.py`, `is_rfc1123_hostname`) -/

/-- `LABEL_MAX = 63` in `hostname.py`. -/
def LABEL_MAX : Nat := 63

/-- `HOSTNAME_MAX = 253` in `hostname.py`. -/
def HOSTNAME_MAX : Nat := 253

/-- The per-character admission test in `is_rfc1123_hostname`:
`97 <= o <= 122 or 48 <= o <= 57 or ch in {".", "-"} or 65 <= o <= 90`. -/
def allowedChar (c : Char) : Bool :=
  (97 ≤ c.toNat && c.toNat ≤ 122) || (48 ≤ c.toNat && c.toNat ≤ 57)
    || c = '.' || c = '-' || (65 ≤ c.toNat && c.toNat ≤ 90)

/-- Python's `str.isalnum()` as it is applied inside `is_rfc1123_hostname`.
Every character reaching the `isalnum` calls has already passed `allowedChar`
(the function returns `False` earlier otherwise), so only ASCII letters and
digits can reach them, where `isalnum` coincides with this ASCII test. -/
def pyIsAlnum (c : Char) : Bool :=
  (97 ≤ c.toNat && c.toNat ≤ 122) || (48 ≤ c.toNat && c.toNat ≤ 57)
    || (65 ≤ c.toNat && c.toNat ≤ 90)

/-- Python `value.split(".")`: splits on every dot, keeping empty pieces;
`"".split(".") == [""]`. -/
def splitOnDot : List Char → List (List Char)
  | [] => [[]]
  | c :: rest =>
    match splitOnDot rest with
    | [] => [[]]
    | l :: ls => if c = '.' then [] :: l :: ls else (c :: l) :: ls

/-- Python `".".join(labels)`. -/
def joinDots : List (List Char) → List Char
  | [] => []
  | [l] => l
  | l :: l' :: ls => l ++ '.' :: joinDots (l' :: ls)

/-- The per-label test of `is_rfc1123_hostname`: length in `1..LABEL_MAX`,
first and last character alphanumeric, every character alphanumeric or a
hyphen.  The length conjunct is checked first, exactly as in the source, so
the `headD`/`getLastD` defaults are never reached on an empty label. -/
def labelOk (label : List Char) : Bool :=
  (1 ≤ label.length && label.length ≤ LABEL_MAX)
    && pyIsAlnum (label.headD 'x') && pyIsAlnum (label.getLastD 'x')
    && label.all (fun c => pyIsAlnum c || c = '-')

/-- `is_rfc1123_hostname(value)` from `hostname.py`: rejects the empty string
and strings longer than 253, requires every character to pass `allowedChar`,
and every dot-separated label to pass `labelOk`. -/
def is_rfc1123_hostname (value : List Char) : Bool :=
  if value = [] || HOSTNAME_MAX < value.length then false
  else value.all allowedChar && (splitOnDot value).all labelOk

/-! ## Hostname coercion (`hostname.py`, `coerce_to_rfc1123`) -/

/-- Models `unicodedata.normalize("NFKD", value).encode("ascii", "ignore")`:
NFKD is the identity on ASCII characters and the `ascii`/`ignore` encode step
drops everything that is not ASCII.  This is exact for inputs made of ASCII
characters; theorems quantifying over arbitrary inputs therefore restrict to
ASCII inputs (non-ASCII characters may additionally decompose into ASCII
base characters under NFKD, which no claim here depends on). -/
def asciiIgnore (s : List Char) : List Char :=
  s.filter (fun c => c.toNat ≤ 127)

/-- Python `str.lower()` on an ASCII string (all inputs reaching `.lower()` in
`coerce_to_rfc1123` are ASCII because of the preceding `encode("ascii", …)`). -/
def lowerAscii (c : Char) : Char :=
  if 65 ≤ c.toNat && c.toNat ≤ 90 then Char.ofNat (c.toNat + 32) else c

/-- A character matched by `_invalid_char_re = re.compile(r"[^a-z0-9.-]+")`
(applied after lowercasing). -/
def invalidChar (c : Char) : Bool :=
  !((97 ≤ c.toNat && c.toNat ≤ 122) || (48 ≤ c.toNat && c.toNat ≤ 57)
      || c = '.' || c = '-')

/-- `re.sub` of a pattern `p+` by the single character `r`: every maximal run
of characters satisfying `p` is replaced with one `r`.  The `inRun` flag says
whether the previous character was part of a run. -/
def replaceRunsAux (p : Char → Bool) (r : Char) : Bool → List Char → List Char
  | _, [] => []
  | inRun, c :: rest =>
    if p c then
      (if inRun then [] else [r]) ++ replaceRunsAux p r true rest
    else
      c :: replaceRunsAux p r false rest

/-- `re.sub(p+, r, s)` for a single-character-class pattern. -/
def replaceRuns (p : Char → Bool) (r : Char) (s : List Char) : List Char :=
  replaceRunsAux p r false s

/-- Python `label.strip("-")`: drop leading and trailing hyphens. -/
def stripDashes (l : List Char) : List Char :=
  ((l.dropWhile (fun c => c = '-')).reverse.dropWhile (fun c => c = '-')).reverse

/-- The label-cleaning loop of `coerce_to_rfc1123`: strip hyphens, drop empty
labels, truncate labels to `LABEL_MAX`. -/
def cleanLabels : List (List Char) → List (List Char)
  | [] => []
  | raw :: rest =>
    let label := stripDashes raw
    if label = [] then cleanLabels rest
    else
      (if LABEL_MAX < label.length then label.take LABEL_MAX else label)
        :: cleanLabels rest

/-- The final loop of `coerce_to_rfc1123`: append labels while the total
length (with separators, `len(label) + (1 if i > 0 else 0)`) stays within
`HOSTNAME_MAX`, stopping at the first label that does not fit (`break`). -/
def greedyTake : List (List Char) → Nat → Bool → List (List Char)
  | [], _, _ => []
  | l :: ls, total, first =>
    let extra := l.length + (if first then 0 else 1)
    if HOSTNAME_MAX < total + extra then []
    else l :: greedyTake ls (total + extra) false

/-- `l` holds no two consecutive hyphens (so `_multi_dash_re` finds no
multi-character run in it). -/
def noDoubleDash : List Char → Bool
  | c₁ :: c₂ :: rest => !(c₁ = '-' && c₂ = '-') && noDoubleDash (c₂ :: rest)
  | _ => true

/-- The total length `greedyTake` accounts for a label list: label lengths
plus separators (`1` per label except, when `first`, the very first). -/
def weightAux : List (List Char) → Bool → Nat
  | [], _ => 0
  | l :: ls, first => l.length + (if first then 0 else 1) + weightAux ls false

/-- `coerce_to_rfc1123(value)` from `hostname.py`.  `Except.error` models the
`ValueError` raises; the error payload is the source's message stripped to a
marker string. -/
def coerce_to_rfc1123 (value : List Char) : Except (List Char) (List Char) :=
  if value = [] then .error ('e' :: 'm' :: 'p' :: 't' :: 'y' :: [])
  else
    let s0 := (asciiIgnore value).map lowerAscii
    let s1 := replaceRuns invalidChar '-' s0
    let s2 := replaceRuns (fun c => c = '.') '.' s1
    let s3 := replaceRuns (fun c => c = '-') '-' s2
    let labels := cleanLabels (splitOnDot s3)
    if labels = [] then .error ('n' :: 'o' :: 'l' :: 'a' :: 'b' :: [])
    else
      let out := greedyTake labels 0 true
      if out = [] then .error ('n' :: 'o' :: 'o' :: 'u' :: 't' :: [])
      else .ok (joinDots out)

/-! ## Hostname resolution (`hostname.py`, `resolve_hostname`)

For one call of `resolve_hostname` the `HostnameContext` is fixed, so the
behaviour of each strategy's `resolve(ctx)` is fully described by its outcome
in this call: a value (`str | None`) or a raised exception.  A strategy slot
that is absent (`None` on the check/environment/watchpost, or a falsy
`result.hostname`) is `Option.none`. -/

/-- Outcome of one `strategy.resolve(ctx)` call: a returned `str | None`
value, or a raised exception with message `msg`. -/
inductive StrategyOutcome where
  | val (v : Option (List Char))
  | raise (msg : List Char)
deriving DecidableEq

/-- `resolve_hostname` from `hostname.py`.

* `result_hostname` is `some o` exactly when `result and result.hostname` is
  truthy (then `to_strategy` always yields a strategy and the walrus `if` is
  taken); its outcome is assigned to `candidate` unchanged, so a returned
  empty string stays a candidate.  An exception here propagates unwrapped.
* The check/environment/watchpost levels only accept a non-empty string
  (`isinstance(val, str) and val`) and wrap exceptions in
  `HostnameResolutionError`; they are consulted only in the `else` branch,
  i.e. only when no per-result override is present.
* `service_name`/`environment_name` feed the default fallback
  `f"{check.service_name}-{environment.name}"`.

`Except.error` models a raised exception (`HostnameResolutionError`, or the
unwrapped strategy exception at the per-result level); payloads are marker
strings standing in for the formatted messages. -/
def resolve_hostname
    (result_hostname : Option StrategyOutcome)
    (check_strategy : Option StrategyOutcome)
    (environment_strategy : Option StrategyOutcome)
    (watchpost_strategy : Option StrategyOutcome)
    (service_name environment_name : List Char)
    (fallback_to_default_hostname_generation : Bool)
    (coerce_into_valid_hostname : Bool) :
    Except (List Char) (List Char) := do
  let candidate₀ : Option (List Char) ←
    match result_hostname with
    | some (.raise m) => .error m
    | some (.val v) => pure v
    | none =>
      match check_strategy with
      | some (.raise _) => .error ('c' :: 'h' :: 'k' :: [])
      | some (.val (some v)) =>
        if v ≠ [] then pure (some v)
        else resolveLowerLevels environment_strategy watchpost_strategy
      | _ => resolveLowerLevels environment_strategy watchpost_strategy
  let candidate₁ : Option (List Char) :=
    match candidate₀ with
    | none =>
      if fallback_to_default_hostname_generation then
        some (service_name ++ '-' :: environment_name)
      else none
    | some c => some c
  match candidate₁ with
  | none => .error ('n' :: 'o' :: 'n' :: 'e' :: [])
  | some candidate =>
    if is_rfc1123_hostname candidate then pure candidate
    else if !coerce_into_valid_hostname then
      .error ('s' :: 't' :: 'r' :: 'i' :: 'c' :: 't' :: [])
    else
      match coerce_to_rfc1123 candidate with
      | .ok coerced => pure coerced
      | .error _ => .error ('c' :: 'o' :: 'e' :: 'r' :: [])
where
  /-- Levels 3 and 4 (environment, then watchpost), each guarded by
  `candidate is None` in the source; reached only without a per-result
  override and when the check level left the candidate unset. -/
  resolveLowerLevels (environment_strategy watchpost_strategy :
      Option StrategyOutcome) : Except (List Char) (Option (List Char)) :=
    match environment_strategy with
    | some (.raise _) => .error ('e' :: 'n' :: 'v' :: [])
    | some (.val (some v)) =>
      if v ≠ [] then pure (some v)
      else resolveWatchpostLevel watchpost_strategy
    | _ => resolveWatchpostLevel watchpost_strategy
  /-- Level 4: the watchpost-level strategy. -/
  resolveWatchpostLevel (watchpost_strategy : Option StrategyOutcome) :
      Except (List Char) (Option (List Char)) :=
    match watchpost_strategy with
    | some (.raise _) => .error ('a' :: 'p' :: 'p' :: [])
    | some (.val (some v)) => if v ≠ [] then pure (some v) else pure none
    | _ => pure none

/-! ## Scheduling strategies (`scheduling_strategy.py`)

Environments are identified by `Nat` (they are hashable objects compared by
equality; only identity matters here), and the `set[Environment]` values of
the strategies become `Finset Nat`. -/

/-- `SchedulingDecision`: ordered enum `{SCHEDULE=0, SKIP=1, DONT_SCHEDULE=2}`. -/
inductive SchedulingDecision where
  | SCHEDULE
  | SKIP
  | DONT_SCHEDULE
deriving DecidableEq

/-- The strategies relevant to `DetectImpossibleCombinationStrategy.schedule`,
which dispatches on `isinstance`; every other strategy type behaves as
`other`. -/
inductive PySchedulingStrategy where
  | mustRunInGivenExecutionEnvironment (supported_execution_environments : Finset Nat)
  | mustRunInTargetEnvironment
  | mustRunAgainstGivenTargetEnvironment (supported_target_environments : Finset Nat)
  | other
deriving DecidableEq

/-- `_filter_strategies(strategies, MustRunInGivenExecutionEnvironmentStrategy)`,
projected to the strategies' environment sets. -/
def execEnvSets (strategies : List PySchedulingStrategy) : List (Finset Nat) :=
  strategies.filterMap fun s =>
    match s with
    | .mustRunInGivenExecutionEnvironment e => some e
    | _ => none

/-- `_filter_strategies(strategies, MustRunAgainstGivenTargetEnvironmentStrategy)`,
projected to the strategies' environment sets. -/
def targetEnvSets (strategies : List PySchedulingStrategy) : List (Finset Nat) :=
  strategies.filterMap fun s =>
    match s with
    | .mustRunAgainstGivenTargetEnvironment e => some e
    | _ => none

/-- `bool(self._filter_strategies(strategies, MustRunInTargetEnvironmentStrategy))`. -/
def hasMustRunInTarget (strategies : List PySchedulingStrategy) : Bool :=
  strategies.any fun s =>
    match s with
    | .mustRunInTargetEnvironment => true
    | _ => false

/-- `functools.reduce(set.intersection, sets)` over a non-empty list. -/
def interList : List (Finset Nat) → Finset Nat
  | [] => ∅
  | x :: xs => xs.foldl (· ∩ ·) x

/-- `DetectImpossibleCombinationStrategy.schedule`.  `strategies` is the
check's full resolved strategy list (`current_app._resolve_scheduling_strategies`)
and `check_environments` the set of environments declared by the check
(`set(check.environments)`).  `Except.error` models the raised
`InvalidCheckConfiguration`; the payload distinguishes the three raise sites. -/
def detect_impossible_combination_schedule
    (strategies : List PySchedulingStrategy)
    (check_environments : Finset Nat) : Except Nat SchedulingDecision :=
  let overlapping_execution_environments : Option (Finset Nat) :=
    if execEnvSets strategies ≠ [] then some (interList (execEnvSets strategies))
    else none
  let execCheck : Except Nat Unit :=
    match overlapping_execution_environments with
    | some s => if s = ∅ then .error 1 else .ok ()
    | none => .ok ()
  let overlapping_target_environments : Option (Finset Nat) :=
    if targetEnvSets strategies ≠ [] then some (interList (targetEnvSets strategies))
    else none
  let targetCheck : Except Nat Unit :=
    match overlapping_target_environments with
    | some s => if ¬ check_environments ⊆ s then .error 2 else .ok ()
    | none => .ok ()
  let currentTargetCheck : Except Nat Unit :=
    if hasMustRunInTarget strategies then
      -- `if overlapping_execution_environments and overlapping_target_environments:`
      -- `None` and the empty set are both falsy.
      match overlapping_execution_environments, overlapping_target_environments with
      | some s, some t =>
        if s ≠ ∅ ∧ t ≠ ∅ then
          if s ∩ t = ∅ then .error 3 else .ok ()
        else .ok ()
      | _, _ => .ok ()
    else .ok ()
  match execCheck with
  | .error e => .error e
  | .ok _ =>
    match targetCheck with
    | .error e => .error e
    | .ok _ =>
      match currentTargetCheck with
      | .error e => .error e
      | .ok _ => .ok .SCHEDULE

/-! ## Result builder (`result.py`, `OngoingCheckResult`) -/

/-- `CheckState`: enum `{OK=0, WARN=1, CRIT=2, UNKNOWN=3}`. -/
inductive CheckState where
  | OK
  | WARN
  | CRIT
  | UNKNOWN
deriving DecidableEq

/-- The numeric `.value` of a `CheckState`, which drives `__lt__` and `max`. -/
def CheckState.value : CheckState → Nat
  | .OK => 0
  | .WARN => 1
  | .CRIT => 2
  | .UNKNOWN => 3

/-- Python `max` of two states under `CheckState.__lt__` (`a if b.value <=
a.value else b`; `max(x, y)` keeps the first argument on ties, which is
irrelevant here since equal values mean equal states). -/
def CheckState.pymax (a b : CheckState) : CheckState :=
  if a.value < b.value then b else a

/-- `OngoingCheckResult.Partial`: `(check_state, summary, details)`.  The
`details` slot is kept as the already-normalized optional string. -/
structure Partial where
  check_state : CheckState
  summary : List Char
  details : Option (List Char)
deriving DecidableEq

/-- The fields of `OngoingCheckResult` that determine the finalized state and
summary. -/
structure OngoingCheckResult where
  ok_summary : List Char
  fail_summary : List Char
  results : List Partial
deriving DecidableEq

/-- `OngoingCheckResult.check_state`: `OK` on no partials, `CRIT` when any
partial is `CRIT`, otherwise `max(result.check_state for result in
self.results)`. -/
def OngoingCheckResult.check_state (o : OngoingCheckResult) : CheckState :=
  match o.results with
  | [] => .OK
  | r :: rest =>
    if (r :: rest).any (fun p => p.check_state = .CRIT) then .CRIT
    else (rest.map Partial.check_state).foldl CheckState.pymax r.check_state

/-- The `(state, summary)` pair of `OngoingCheckResult.to_check_result()`:
the produced `CheckResult` has state `maximum_state` (via
`maximum_state.check_function`, i.e. the `ok`/`warn`/`crit`/`unknown`
constructor for that state) and summary `self.ok_summary if maximum_state ==
CheckState.OK else self.fail_summary`.  The details aggregation of
`to_check_result` touches neither field. -/
def OngoingCheckResult.to_check_result_state_summary (o : OngoingCheckResult) :
    CheckState × List Char :=
  let maximum_state := o.check_state
  (maximum_state,
    if maximum_state = .OK then o.ok_summary else o.fail_summary)

/-! ## Factory cache keys (`datasource.py`, `FromFactory.cache_key`) -/

/-- A stand-in for Python's `hash` of a `frozenset` of argument values
(values identified by `Nat`).  `hash(frozenset(...))` is a pure function of
the frozenset, i.e. of the *set* of elements; only that extensionality is
used in the theorems, so any concrete function of the `Finset` models it. -/
def pyHashFrozenset (s : Finset Nat) : Nat :=
  s.sum fun x => x * x + 1

/-- Stand-in for `hash(frozenset(kwargs.items()))`: a pure function of the
set of `(name, value)` pairs (names and values identified by `Nat`). -/
def pyHashFrozensetItems (s : Finset (Nat × Nat)) : Nat :=
  s.sum fun x => x.1 * 3 + x.2 * x.2 + 1

/-- `FromFactory` marker: `factory_type` (a type, identified by `Nat`, or
`None`), the positional-argument tuple `args`, and the keyword arguments
`kwargs` as `(name, value)` pairs. -/
structure FromFactory where
  factory_type : Option Nat
  args : List Nat
  kwargs : List (Nat × Nat)
deriving DecidableEq

/-- `FromFactory.cache_key(type_key)`:
`(self.factory_type or type_key, hash(frozenset(self.args)),
hash(frozenset(self.kwargs.items())))`.  A class object is always truthy, so
`or` picks `type_key` exactly when `factory_type` is `None`. -/
def FromFactory.cache_key (f : FromFactory) (type_key : Option Nat) :
    Option Nat × Nat × Nat :=
  (match f.factory_type with
   | some t => some t
   | none => type_key,
   pyHashFrozenset f.args.toFinset,
   pyHashFrozensetItems f.kwargs.toFinset)

/-! ## Per-(check, environment) run (`app.py`, `Watchpost._run_check`)

The branching of `_run_check` after the hostname/scheduling preamble depends
on: the scheduling decision, `use_cache`, the entry the check cache would
return (with `return_expired=True`), `check.cache_for`, and the outcome of
`executor.result(key)`.  Submission to the executor mutates the executor but
not the returned value, so the returned value is a function of those inputs;
the executor itself is modelled separately below. -/

/-- `ExecutionResult` (`result.py`): the wire record.  `metrics` is kept as
an opaque payload string option; `check_definition` as an optional marker. -/
structure ExecutionResult where
  piggyback_host : List Char
  service_name : List Char
  service_labels : List (List Char × List Char)
  environment_name : List Char
  check_state : CheckState
  summary : List Char
  details : Option (List Char)
  metrics : Option (List Char)
  check_definition : Option (List Char)
deriving DecidableEq

/-- A check-cache entry as seen by `_run_check`: the cached
`list[ExecutionResult]` and the value of `is_expired()` at this read.  A
`CacheEntry` object is always truthy (a plain dataclass), so
`not check_results_cache_entry` is exactly `entry is None`. -/
structure CheckCacheEntry where
  value : List ExecutionResult
  expired : Bool
deriving DecidableEq

/-- Outcome of `executor.result(key=executor_key)` inside `_run_check`:
a normal return (`None` while the job still runs, else the result list), a
raised `DatasourceUnavailable` (with `str(e)` and the formatted traceback
`"".join(traceback.format_exception(e))`), or any other raised exception. -/
inductive PickupOutcome where
  | ok (maybe_execution_results : Option (List ExecutionResult))
  | datasourceUnavailable (msg : List Char) (tb : List Char)
  | otherError (msg : List Char) (tb : List Char)
deriving DecidableEq

/-- The synthetic `ExecutionResult(...)` literals of `_run_check`: all share
`piggyback_host`, `check.service_name`, `check.service_labels`,
`environment.name`, `check_definition=check.invocation_information`, and no
metrics. -/
def syntheticResult (piggyback_host service_name : List Char)
    (service_labels : List (List Char × List Char))
    (environment_name : List Char) (check_definition : Option (List Char))
    (check_state : CheckState) (summary : List Char)
    (details : Option (List Char)) : ExecutionResult :=
  { piggyback_host := piggyback_host
    service_name := service_name
    service_labels := service_labels
    environment_name := environment_name
    check_state := check_state
    summary := summary
    details := details
    metrics := none
    check_definition := check_definition }

/-- Summary of the synthetic SKIP-without-cache result. -/
def unschedulableSummary : List Char :=
  "Check is temporarily unschedulable and no prior results are available".data

/-- Summary of the synthetic still-running result. -/
def asyncPendingSummary : List Char :=
  "Check is running asynchronously and first results are not available yet".data

/-- `additional_details = f"\n\n{e!s}\n" + "".join(traceback.format_exception(e))`
from the `DatasourceUnavailable` handler of `_run_check`. -/
def additionalDetails (msg tb : List Char) : List Char :=
  ('\n' :: '\n' :: []) ++ msg ++ ('\n' :: []) ++ tb

/-- `Watchpost._run_check` from the scheduling `match` onwards (`app.py`).

* `cache_lookup` is what `self._check_cache.get_check_results_cache_entry(...,
  return_expired=True)` would return; the source consults it only when
  `use_cache` is true, else `check_results_cache_entry = None`.
* `check.cache_for` influences only `should_update_cache` and the `resubmit`
  flag passed to the executor, not the returned value, and is omitted.
* `pickup` is the outcome of `executor.result(...)`, consulted only on the
  paths where the source calls it.
* The returned `none` models `_run_check` returning `None` (DONT_SCHEDULE).

In the `DatasourceUnavailable` branch the source mutates each cached
result's `details` in place (`+=` when truthy, assignment otherwise — for a
`str | None` field both cases equal `(details or "") + additional`) and then
returns the cached list; the model returns the updated list. -/
def run_check (scheduling_decision : SchedulingDecision) (use_cache : Bool)
    (cache_lookup : Option CheckCacheEntry)
    (pickup : PickupOutcome)
    (piggyback_host service_name : List Char)
    (service_labels : List (List Char × List Char))
    (environment_name : List Char) (check_definition : Option (List Char)) :
    Option (List ExecutionResult) :=
  let check_results_cache_entry : Option CheckCacheEntry :=
    if use_cache then cache_lookup else none
  let synth := syntheticResult piggyback_host service_name service_labels
    environment_name check_definition
  match scheduling_decision with
  | .SKIP =>
    match check_results_cache_entry with
    | none => some [synth .UNKNOWN unschedulableSummary none]
    | some entry => some entry.value
  | .DONT_SCHEDULE => none
  | .SCHEDULE =>
    let can_reuse_results : Bool :=
      match check_results_cache_entry with
      | some entry => !entry.expired
      | none => false
    -- (`should_update_cache` and the `executor.submit(...)` call affect only
    -- the executor and cache, not the returned value.)
    if can_reuse_results then
      some ((check_results_cache_entry.map CheckCacheEntry.value).getD [])
    else
      match pickup with
      | .ok maybe_execution_results =>
        -- `if not maybe_execution_results and check_results_cache_entry:`
        let falsy : Bool :=
          maybe_execution_results = none ∨ maybe_execution_results = some []
        if falsy && check_results_cache_entry.isSome then
          some ((check_results_cache_entry.map CheckCacheEntry.value).getD [])
        else if falsy then
          some [synth .UNKNOWN asyncPendingSummary none]
        else
          -- (on success the results are also stored back into the cache
          -- when `use_cache`; the cache is not part of the return value)
          some (maybe_execution_results.getD [])
      | .datasourceUnavailable msg tb =>
        let additional := additionalDetails msg tb
        match check_results_cache_entry with
        | some entry =>
          if entry.value ≠ [] then
            some (entry.value.map fun r =>
              { r with details := some ((r.details.getD []) ++ additional) })
          else
            some [synth .UNKNOWN msg (some additional)]
        | none => some [synth .UNKNOWN msg (some additional)]
      | .otherError msg tb =>
        some [synth .CRIT msg (some tb)]

/-! ## Deduplicating executor (`executor.py`, `CheckExecutor`)

Keys and future handles are identified by `Nat`.  The executor state is the
per-key `_KeyState` map plus bookkeeping that makes the model closed: a
fresh-handle counter (each `Future` is a new object; the counter also counts
how many jobs have ever been started) and the list of started-but-not-yet
completed jobs, from which the completion callback of a future may fire
(exactly once per future, as guaranteed by `concurrent.futures`). -/

/-- `_KeyState`: in-flight futures and completed futures awaiting pickup
(`finished_futures` is a FIFO deque, appended on the right, popped on the
left). -/
structure KeyState where
  active_futures : List Nat
  finished_futures : List Nat
deriving DecidableEq

/-- The executor state: `_state` plus the job bookkeeping described above. -/
structure ExecutorState where
  state : Nat → Option KeyState
  next_handle : Nat
  running : List (Nat × Nat)

/-- Pointwise map update, modelling `self._state[key] = ...` /
`del self._state[key]` / `setdefault`. -/
def updateMap (m : Nat → Option KeyState) (key : Nat) (v : Option KeyState) :
    Nat → Option KeyState :=
  fun k => if k = key then v else m k

/-- A freshly constructed executor: empty `_state`, no jobs. -/
def ExecutorState.init : ExecutorState :=
  { state := fun _ => none, next_handle := 0, running := [] }

/-- `CheckExecutor.submit(key, func, ..., resubmit=...)`, returning the
future handle and the new state.

`key_state = self._state.setdefault(key, _KeyState())`; if `not resubmit and
key_state.active_futures`, the first active handle is returned unchanged
(the `setdefault` insertion of an empty `_KeyState` on this path cannot
occur: an early return needs a non-empty active list, hence an existing
state).  Otherwise a new future is started (fresh handle `next_handle`),
appended to `active_futures`, its completion callback registered
(modelled by the `running` entry), and returned. -/
def ExecutorState.submit (s : ExecutorState) (key : Nat) (resubmit : Bool) :
    Nat × ExecutorState :=
  let key_state := (s.state key).getD ⟨[], []⟩
  if !resubmit && key_state.active_futures ≠ [] then
    (key_state.active_futures.headD 0, s)
  else
    let h := s.next_handle
    let key_state' :=
      { key_state with active_futures := key_state.active_futures ++ [h] }
    (h,
      { state := updateMap s.state key (some key_state')
        next_handle := h + 1
        running := s.running ++ [(key, h)] })

/-- `CheckExecutor._done_callback(key, future)`: fires when the future
finishes; the handle is appended to `finished_futures` if the key still has
state (else only the warning branch runs).  The job leaves `running`. -/
def ExecutorState.doneCallback (s : ExecutorState) (key h : Nat) :
    ExecutorState :=
  let s' := { s with running := s.running.erase (key, h) }
  match s.state key with
  | some key_state =>
    { s' with
      state := updateMap s.state key
        (some { key_state with
          finished_futures := key_state.finished_futures ++ [h] }) }
  | none => s'

/-- What `CheckExecutor.result(key)` does: raise `KeyError`, return `None`
(still running), or return the value of a finished future (identified by its
handle). -/
inductive ResultOutcome where
  | keyError
  | stillRunning
  | value (h : Nat)
deriving DecidableEq

/-- `CheckExecutor.result(key)`: `KeyError` when no state or no futures at
all; `None` when nothing finished yet; otherwise pop the oldest finished
future, remove it from `active_futures` (first occurrence;
`try/except ValueError: pass`), and drop the key's state once
`active_futures` is empty. -/
def ExecutorState.result (s : ExecutorState) (key : Nat) :
    ResultOutcome × ExecutorState :=
  match s.state key with
  | none => (.keyError, s)
  | some key_state =>
    match key_state.finished_futures with
    | [] =>
      if key_state.active_futures = [] then (.keyError, s)
      else (.stillRunning, s)
    | finished_future :: rest =>
      let newActive := key_state.active_futures.erase finished_future
      if newActive = [] then
        (.value finished_future, { s with state := updateMap s.state key none })
      else
        (.value finished_future,
          { s with state := updateMap s.state key (some ⟨newActive, rest⟩) })

/-- One interleaving step of the three operations that mutate executor
state.  A completion callback can fire only for a started, not yet completed
job — `concurrent.futures` runs each future's callbacks exactly once. -/
inductive ExecutorStep : ExecutorState → ExecutorState → Prop where
  | submit (s : ExecutorState) (key : Nat) (resubmit : Bool) :
      ExecutorStep s (s.submit key resubmit).2
  | complete (s : ExecutorState) (key h : Nat)
      (hmem : (key, h) ∈ s.running) :
      ExecutorStep s (s.doneCallback key h)
  | result (s : ExecutorState) (key : Nat) :
      ExecutorStep s (s.result key).2

/-- States reachable from a fresh executor by `submit`, completion
callbacks, and `result`. -/
def ReachableExecutor (s : ExecutorState) : Prop :=
  Relation.ReflTransGen ExecutorStep ExecutorState.init s

/-- The executor's state invariant: per key, the finished queue only holds
handles that are still in the active list, both lists are duplicate-free and
all handles were issued by the counter; started-but-uncompleted jobs sit in
their key's active list and never in its finished queue; no handle is
running twice. -/
def ExecutorInv (s : ExecutorState) : Prop :=
  (∀ k ks, s.state k = some ks →
    ks.finished_futures ⊆ ks.active_futures ∧
    ks.active_futures.Nodup ∧ ks.finished_futures.Nodup ∧
    (∀ h ∈ ks.active_futures, h < s.next_handle)) ∧
  (∀ k h, (k, h) ∈ s.running →
    h < s.next_handle ∧
    ∃ ks, s.state k = some ks ∧ h ∈ ks.active_futures ∧
      h ∉ ks.finished_futures) ∧
  (s.running.map Prod.snd).Nodup

/-! ## Claim-side (specification-worded) definitions -/

/-- The state with the given numeric value (inverse of `CheckState.value` on
`0..3`). -/
def stateOfValue : Nat → CheckState
  | 0 => .OK
  | 1 => .WARN
  | 2 => .CRIT
  | _ => .UNKNOWN

/-- The aggregation rule as the specification words it: the final state is
CRIT if any partial state is CRIT, otherwise the numeric maximum of the
states; OK when the list is empty (the maximum of no values is taken as 0). -/
def specFinalState (P : List CheckState) : CheckState :=
  if P.any (fun p => p = .CRIT) then .CRIT
  else stateOfValue ((P.map CheckState.value).foldl Nat.max 0)

/-- Claim-side condition (a): the intersection of all
`MustRunInGivenExecutionEnvironment` sets (of which there is at least one)
is empty. -/
def conflictingExecutionConstraint (ss : List PySchedulingStrategy) : Prop :=
  execEnvSets ss ≠ [] ∧ interList (execEnvSets ss) = ∅

/-- Claim-side condition (b): the intersection of all
`MustRunAgainstGivenTargetEnvironment` sets (of which there is at least one)
does not contain the check's declared environment set. -/
def conflictingTargetConstraint (ss : List PySchedulingStrategy)
    (check_environments : Finset Nat) : Prop :=
  targetEnvSets ss ≠ [] ∧ ¬ check_environments ⊆ interList (targetEnvSets ss)

/-- Claim-side condition (c): a `MustRunInTargetEnvironment` strategy is
present, both intersections exist and are non-empty, and they are disjoint. -/
def disjointCurrentTargetConstraint (ss : List PySchedulingStrategy) : Prop :=
  hasMustRunInTarget ss = true ∧
  execEnvSets ss ≠ [] ∧ interList (execEnvSets ss) ≠ ∅ ∧
  targetEnvSets ss ≠ [] ∧ interList (targetEnvSets ss) ≠ ∅ ∧
  interList (execEnvSets ss) ∩ interList (targetEnvSets ss) = ∅

instance (ss : List PySchedulingStrategy) :
    Decidable (conflictingExecutionConstraint ss) := by
  unfold conflictingExecutionConstraint; infer_instance

instance (ss : List PySchedulingStrategy) (envs : Finset Nat) :
    Decidable (conflictingTargetConstraint ss envs) := by
  unfold conflictingTargetConstraint; infer_instance

instance (ss : List PySchedulingStrategy) :
    Decidable (disjointCurrentTargetConstraint ss) := by
  unfold disjointCurrentTargetConstraint; infer_instance

/-! ## Theorems -/

lemma CheckState.value_pymax (a b : CheckState) :
    (CheckState.pymax a b).value = Nat.max a.value b.value := by
  cases a <;> cases b <;> decide

lemma stateOfValue_value (a : CheckState) : stateOfValue a.value = a := by
  cases a <;> rfl

lemma foldl_pymax_eq_stateOfValue (l : List CheckState) (a : CheckState) :
    l.foldl CheckState.pymax a =
      stateOfValue ((l.map CheckState.value).foldl Nat.max a.value) := by
  induction l generalizing a with
  | nil => simp [stateOfValue_value]
  | cons x xs ih =>
    simpa [CheckState.value_pymax a x] using ih (CheckState.pymax a x)

lemma any_map_check_state (l : List Partial) :
    (l.map Partial.check_state).any (fun p => p = CheckState.CRIT) =
      l.any (fun p => p.check_state = CheckState.CRIT) := by
  induction l with
  | nil => rfl
  | cons x xs ih => simp [ih]

lemma check_state_eq_specFinalState (o : OngoingCheckResult) :
    o.check_state = specFinalState (o.results.map Partial.check_state) := by
  rcases hres : o.results with _ | ⟨r, rest⟩ <;>
    simp only [OngoingCheckResult.check_state, specFinalState, hres]
  · rfl
  · rw [any_map_check_state]
    by_cases hc : ((r :: rest).any (fun p => p.check_state = CheckState.CRIT)) = true
    · rw [if_pos hc, if_pos hc]
    · rw [if_neg hc, if_neg hc, foldl_pymax_eq_stateOfValue]
      simp [Nat.zero_max]

/-- C6: finalizing an ongoing-result builder yields the state the
specification describes — CRIT when any partial is CRIT, else the numeric
maximum, OK on no partials — and the summary is `ok_summary` exactly when
that state is OK, else `fail_summary`. -/
theorem claim_C6 (o : OngoingCheckResult) :
    o.to_check_result_state_summary =
      (specFinalState (o.results.map Partial.check_state),
       if specFinalState (o.results.map Partial.check_state) = .OK then
         o.ok_summary
       else o.fail_summary) := by
  unfold OngoingCheckResult.to_check_result_state_summary
  rw [check_state_eq_specFinalState]

/-- C3: with `use_cache` enabled and an aggregated SKIP decision, the run
returns exactly the cached list when any cache entry (expired or not)
exists, and otherwise exactly one synthetic UNKNOWN result with the
"temporarily unschedulable" summary. -/
theorem claim_C3 (cache_lookup : Option CheckCacheEntry)
    (pickup : PickupOutcome) (ph sn en : List Char)
    (sl : List (List Char × List Char)) (cd : Option (List Char)) :
    run_check .SKIP true cache_lookup pickup ph sn sl en cd =
      some (match cache_lookup with
        | some entry => entry.value
        | none =>
          [syntheticResult ph sn sl en cd .UNKNOWN unschedulableSummary none]) := by
  cases cache_lookup <;> rfl

/-- C4: when picking up the executor result raises `DatasourceUnavailable`
(which requires the cached entry, if any, to be expired — a fresh entry is
returned before the pickup), a cached entry with results is returned with
each result's details extended by the formatted-exception block and states
and summaries untouched; with no cached entry, exactly one synthetic UNKNOWN
result carries the exception message as summary and the formatted exception
as details. -/
theorem claim_C4 (use_cache : Bool) (cache_lookup : Option CheckCacheEntry)
    (msg tb ph sn en : List Char) (sl : List (List Char × List Char))
    (cd : Option (List Char))
    (hexp : ∀ e, (if use_cache then cache_lookup else none) = some e →
      e.expired = true) :
    (∀ e, (if use_cache then cache_lookup else none) = some e → e.value ≠ [] →
      run_check .SCHEDULE use_cache cache_lookup
          (.datasourceUnavailable msg tb) ph sn sl en cd =
        some (e.value.map fun r =>
          { r with
            details := some ((r.details.getD []) ++ additionalDetails msg tb) })) ∧
    ((if use_cache then cache_lookup else none) = none →
      run_check .SCHEDULE use_cache cache_lookup
          (.datasourceUnavailable msg tb) ph sn sl en cd =
        some [syntheticResult ph sn sl en cd .UNKNOWN msg
          (some (additionalDetails msg tb))]) := by
  constructor
  · intro e he' hne
    have he := hexp e he'
    unfold run_check
    rw [he']
    simp [he, hne]
  · intro h
    unfold run_check
    rw [h]
    rfl

/-- Witness for C4 with an expired cached entry holding one OK result. -/
theorem claim_C4_witness :
    run_check .SCHEDULE true
        (some ⟨[⟨"h".data, "s".data, [], "e".data, .OK, "k".data, none,
          none, none⟩], true⟩)
        (.datasourceUnavailable "m".data "t".data) "h".data "s".data []
        "e".data none =
      some [⟨"h".data, "s".data, [], "e".data, .OK, "k".data,
        some (additionalDetails "m".data "t".data), none, none⟩] := by
  have H := (claim_C4 true
    (some ⟨[⟨"h".data, "s".data, [], "e".data, .OK, "k".data, none,
      none, none⟩], true⟩)
    "m".data "t".data "h".data "s".data "e".data [] none
    (fun e he => by cases he; rfl)).1
    ⟨[⟨"h".data, "s".data, [], "e".data, .OK, "k".data, none, none, none⟩],
      true⟩ rfl (by decide)
  simpa using H

/-- C5: `DetectImpossibleCombinationStrategy.schedule` raises
`InvalidCheckConfiguration` exactly under the three aggregate conditions —
(a) empty intersection of the `MustRunInGivenExecutionEnvironment` sets,
(b) the intersection of the `MustRunAgainstGivenTargetEnvironment` sets not
containing the check's declared environments, (c) a
`MustRunInTargetEnvironment` present with both intersections non-empty but
disjoint — and returns SCHEDULE otherwise, never SKIP or DONT_SCHEDULE. -/
theorem claim_C5 (ss : List PySchedulingStrategy) (envs : Finset Nat) :
    detect_impossible_combination_schedule ss envs =
      if conflictingExecutionConstraint ss then .error 1
      else if conflictingTargetConstraint ss envs then .error 2
      else if disjointCurrentTargetConstraint ss then .error 3
      else .ok .SCHEDULE := by
  unfold detect_impossible_combination_schedule conflictingExecutionConstraint
    conflictingTargetConstraint disjointCurrentTargetConstraint
  by_cases hA : execEnvSets ss = [] <;>
    by_cases hB : targetEnvSets ss = [] <;>
      simp only [hA, hB, ne_eq, not_true_eq_false, not_false_eq_true,
        if_true, if_false, ite_true, ite_false, false_and, true_and] <;>
    by_cases hM : hasMustRunInTarget ss = true <;>
      simp [hA, hB, hM] <;>
    split_ifs <;> simp_all

/-- C7: contrary to the claim, a per-result hostname override whose strategy
resolves to `None` does not fall through to the check-level strategy: with a
check-level strategy resolving to `"check-host"`, the resolver still
produces the default fallback `"svc-prod"`. -/
theorem claim_C7_counterexample :
    resolve_hostname (some (.val none)) (some (.val (some "check-host".data)))
        none none "svc".data "prod".data true true = .ok "svc-prod".data ∧
      ("svc-prod".data ≠ "check-host".data) := by
  constructor
  · rfl
  · decide

/-- C7 (amended): when the `CheckResult` carries a hostname override, the
check-, environment-, and application-level strategies are never consulted —
even when the override's strategy resolves to `None`, in which case the
resolver proceeds directly to the default fallback. -/
theorem claim_C7 (chk env app : Option StrategyOutcome) (sn en : List Char)
    (fb co : Bool) :
    resolve_hostname (some (.val none)) chk env app sn en fb co =
      resolve_hostname (some (.val none)) none none none sn en fb co := by
  rfl

/-- C8: contrary to the claim, two `FromFactory` markers with the same
factory type whose positional-argument tuples hold the same values in
different order produce the *same* cache key: `hash(frozenset(self.args))`
is order-insensitive. -/
theorem claim_C8_counterexample :
    (([1, 2] : List Nat) ≠ [2, 1]) ∧
      FromFactory.cache_key ⟨some 0, [1, 2], []⟩ none =
        FromFactory.cache_key ⟨some 0, [2, 1], []⟩ none := by
  decide

/-- C8 (amended): the cache key is the triple of the factory type (falling
back to the given type), the hash of the *frozenset* of positional
arguments, and the hash of the frozenset of keyword items; in particular
markers whose argument tuples contain the same values in any order produce
equal cache keys. -/
theorem claim_C8 (f₁ f₂ : FromFactory) (t : Option Nat)
    (hf : f₁.factory_type = f₂.factory_type)
    (ha : f₁.args.toFinset = f₂.args.toFinset)
    (hk : f₁.kwargs.toFinset = f₂.kwargs.toFinset) :
    f₁.cache_key t =
      ((match f₁.factory_type with | some ft => some ft | none => t),
        pyHashFrozenset f₁.args.toFinset,
        pyHashFrozensetItems f₁.kwargs.toFinset) ∧
      f₁.cache_key t = f₂.cache_key t := by
  refine ⟨rfl, ?_⟩
  unfold FromFactory.cache_key
  rw [hf, ha, hk]

/-- Witness for C8 at concrete markers `(0, (3, 4), {})` and `(0, (4, 3), {})`. -/
theorem claim_C8_witness :
    (⟨some 0, [3, 4], []⟩ : FromFactory).factory_type =
        (⟨some 0, [4, 3], []⟩ : FromFactory).factory_type ∧
      (⟨some 0, [3, 4], []⟩ : FromFactory).args.toFinset =
        (⟨some 0, [4, 3], []⟩ : FromFactory).args.toFinset ∧
      (⟨some 0, [3, 4], []⟩ : FromFactory).cache_key (some 7) =
        (⟨some 0, [4, 3], []⟩ : FromFactory).cache_key (some 7) :=
  ⟨by decide, by decide,
    (claim_C8 ⟨some 0, [3, 4], []⟩ ⟨some 0, [4, 3], []⟩ (some 7)
      (by decide) (by decide) (by decide)).2⟩

lemma splitOnDot_ne_nil (s : List Char) : splitOnDot s ≠ [] := by
  cases s with
  | nil => simp [splitOnDot]
  | cons c rest =>
    simp only [splitOnDot]
    cases h : splitOnDot rest with
    | nil => simp
    | cons l ls =>
      dsimp only
      by_cases hc : c = '.' <;> simp [hc]

lemma joinDots_splitOnDot (s : List Char) : joinDots (splitOnDot s) = s := by
  induction s with
  | nil => rfl
  | cons c rest ih =>
    simp only [splitOnDot]
    cases h : splitOnDot rest with
    | nil => exact absurd h (splitOnDot_ne_nil rest)
    | cons l ls =>
      rw [h] at ih
      dsimp only
      by_cases hc : c = '.'
      · subst hc
        rw [if_pos rfl]
        show '.' :: joinDots (l :: ls) = '.' :: rest
        rw [ih]
      · rw [if_neg hc]
        cases ls with
        | nil =>
          show c :: l = c :: rest
          simp only [joinDots] at ih
          rw [ih]
        | cons l₂ ls₂ =>
          show (c :: l) ++ '.' :: joinDots (l₂ :: ls₂) = c :: rest
          simp only [joinDots] at ih
          rw [List.cons_append, ih]

lemma labelOk_facts (l : List Char) (h : labelOk l = true) :
    l ≠ [] ∧ l.length ≤ LABEL_MAX ∧ pyIsAlnum (l.headD 'x') = true ∧
      pyIsAlnum (l.getLastD 'x') = true ∧
      ∀ c ∈ l, (pyIsAlnum c || c = '-') = true := by
  unfold labelOk at h
  simp only [Bool.and_eq_true, List.all_eq_true, decide_eq_true_eq] at h
  obtain ⟨⟨⟨⟨h1, h2⟩, h3⟩, h4⟩, h5⟩ := h
  refine ⟨?_, h2, h3, h4, fun c hc => by simpa using h5 c hc⟩
  intro hnil
  subst hnil
  simp at h1

lemma pyIsAlnum_ne_dash {c : Char} (h : pyIsAlnum c = true) : c ≠ '-' := by
  intro hc
  subst hc
  exact absurd h (by decide)

lemma alnum_or_dash_ne_dot {c : Char} (h : (pyIsAlnum c || c = '-') = true) :
    c ≠ '.' := by
  intro hc
  subst hc
  exact absurd h (by decide)

lemma replaceRunsAux_true_of_head (p : Char → Bool) (r : Char) (s : List Char)
    (h : ∀ c ∈ s.head?, p c = false) :
    replaceRunsAux p r true s = replaceRunsAux p r false s := by
  cases s with
  | nil => rfl
  | cons c rest => simp [replaceRunsAux, h c (by simp)]

lemma replaceRuns_id (p : Char → Bool) (r : Char) (s : List Char)
    (hval : ∀ c ∈ s, p c = true → c = r)
    (hadj : s.Chain' (fun a b => ¬(p a = true ∧ p b = true))) :
    replaceRuns p r s = s := by
  unfold replaceRuns
  induction s with
  | nil => rfl
  | cons c rest ih =>
    rw [List.chain'_cons'] at hadj
    obtain ⟨hhead, hrest⟩ := hadj
    cases hp : p c with
    | true =>
      have hc := hval c (by simp) hp
      subst hc
      have hh : ∀ y ∈ rest.head?, p y = false := by
        intro y hy
        have hr := hhead y hy
        cases hpy : p y with
        | false => rfl
        | true => exact absurd ⟨hp, hpy⟩ hr
      simp only [replaceRunsAux, hp]
      rw [replaceRunsAux_true_of_head p c rest hh,
        ih (fun x hx hpx => hval x (by simp [hx]) hpx) hrest]
      simp
    | false =>
      simp only [replaceRunsAux, hp]
      rw [ih (fun x hx hpx => hval x (by simp [hx]) hpx) hrest]
      simp

lemma chain'_of_not_mem (p : Char → Bool) (s : List Char)
    (h : ∀ c ∈ s, p c = false) :
    s.Chain' (fun a b => ¬(p a = true ∧ p b = true)) := by
  apply List.Pairwise.chain'
  apply List.pairwise_of_forall_mem_list
  intro a ha _ _
  simp [h a ha]

lemma head?_joinDots (l : List Char) (ls : List (List Char)) (hl : l ≠ []) :
    (joinDots (l :: ls)).head? = l.head? := by
  cases ls with
  | nil => rfl
  | cons l₂ ls₂ =>
    cases l with
    | nil => exact absurd rfl hl
    | cons c cs => rfl

lemma chain'_dotfree_joinDots (L : List (List Char))
    (hne : ∀ l ∈ L, l ≠ []) (hfree : ∀ l ∈ L, ∀ c ∈ l, c ≠ '.') :
    (joinDots L).Chain' (fun a b => ¬(a = '.' ∧ b = '.')) := by
  induction L with
  | nil => exact List.chain'_nil
  | cons l ls ih =>
    cases ls with
    | nil =>
      apply List.Pairwise.chain'
      apply List.pairwise_of_forall_mem_list
      intro a ha _ _
      exact fun hab => hfree l (by simp) a ha hab.1
    | cons l₂ ls₂ =>
      show List.Chain' _ (l ++ '.' :: joinDots (l₂ :: ls₂))
      rw [List.chain'_append]
      refine ⟨?_, ?_, ?_⟩
      · apply List.Pairwise.chain'
        apply List.pairwise_of_forall_mem_list
        intro a ha _ _
        exact fun hab => hfree l (by simp) a ha hab.1
      · rw [List.chain'_cons']
        refine ⟨?_, ih (fun x hx => hne x (by simp [hx]))
          (fun x hx => hfree x (by simp [hx]))⟩
        intro y hy
        rw [head?_joinDots l₂ ls₂ (hne l₂ (by simp))] at hy
        have hyl : y ∈ l₂ := List.mem_of_mem_head? hy
        exact fun hab => hfree l₂ (by simp) y hyl hab.2
      · intro x hx y hy
        simp only [List.head?_cons, Option.mem_def, Option.some.injEq] at hy
        subst hy
        have hxl : x ∈ l := List.mem_of_mem_getLast? hx
        exact fun hab => hfree l (by simp) x hxl hab.1

lemma dropWhile_eq_self_of_head (p : Char → Bool) (l : List Char)
    (h : ∀ c ∈ l.head?, p c = false) : l.dropWhile p = l := by
  cases l with
  | nil => rfl
  | cons c rest => simp [List.dropWhile_cons, h c (by simp)]

lemma stripDashes_id (l : List Char)
    (h1 : ∀ c ∈ l.head?, (decide (c = '-')) = false)
    (h2 : ∀ c ∈ l.getLast?, (decide (c = '-')) = false) :
    stripDashes l = l := by
  unfold stripDashes
  rw [dropWhile_eq_self_of_head _ _ h1]
  rw [dropWhile_eq_self_of_head _ _ (by rw [List.head?_reverse]; exact h2)]
  exact List.reverse_reverse l

lemma cleanLabels_id (L : List (List Char))
    (h : ∀ l ∈ L, l ≠ [] ∧ l.length ≤ LABEL_MAX ∧
      (∀ c ∈ l.head?, (decide (c = '-')) = false) ∧
      (∀ c ∈ l.getLast?, (decide (c = '-')) = false)) :
    cleanLabels L = L := by
  induction L with
  | nil => rfl
  | cons l ls ih =>
    obtain ⟨hne, hlen, hh, hl⟩ := h l (by simp)
    unfold cleanLabels
    rw [stripDashes_id l hh hl, if_neg hne, if_neg (by omega),
      ih (fun x hx => h x (by simp [hx]))]

lemma greedyTake_all (L : List (List Char)) : ∀ (total : Nat) (first : Bool),
    total + weightAux L first ≤ HOSTNAME_MAX → greedyTake L total first = L := by
  induction L with
  | nil => intro _ _ _; rfl
  | cons l ls ih =>
    intro total first h
    cases first with
    | true =>
      simp only [weightAux, if_pos] at h
      simp only [greedyTake, if_pos]
      rw [if_neg (by omega), ih _ false (by omega)]
    | false =>
      simp only [weightAux, Bool.false_eq_true, if_neg] at h
      simp only [greedyTake, Bool.false_eq_true, if_neg]
      rw [if_neg (by omega), ih _ false (by omega)]

lemma weightAux_false_eq (l : List Char) (ls : List (List Char)) :
    weightAux (l :: ls) false = weightAux (l :: ls) true + 1 := by
  simp only [weightAux, Bool.false_eq_true, if_false, if_true]
  omega

lemma weightAux_true_eq_length (L : List (List Char)) (h : L ≠ []) :
    weightAux L true = (joinDots L).length := by
  induction L with
  | nil => exact absurd rfl h
  | cons l ls ih =>
    cases ls with
    | nil => simp [weightAux, joinDots]
    | cons l₂ ls₂ =>
      have h2 := ih (by simp)
      show weightAux (l :: l₂ :: ls₂) true = (l ++ '.' :: joinDots (l₂ :: ls₂)).length
      have h3 : weightAux (l :: l₂ :: ls₂) true =
          l.length + weightAux (l₂ :: ls₂) false := by
        simp only [weightAux, if_true]
        omega
      rw [h3, weightAux_false_eq, h2]
      simp only [List.length_append, List.length_cons]

lemma allowedChar_le127 {c : Char} (h : allowedChar c = true) :
    c.toNat ≤ 127 := by
  unfold allowedChar at h
  simp only [Bool.or_eq_true, Bool.and_eq_true, decide_eq_true_eq] at h
  rcases h with ((((⟨_, h⟩ | ⟨_, h⟩) | h) | h) | ⟨_, h⟩)
  · omega
  · omega
  · subst h; decide
  · subst h; decide
  · omega

lemma invalidChar_false {c : Char} (hall : allowedChar c = true)
    (hup : ¬(65 ≤ c.toNat ∧ c.toNat ≤ 90)) : invalidChar c = false := by
  unfold allowedChar at hall
  unfold invalidChar
  simp only [Bool.or_eq_true, Bool.and_eq_true, decide_eq_true_eq] at hall
  rw [Bool.not_eq_false']
  simp only [Bool.or_eq_true, Bool.and_eq_true, decide_eq_true_eq]
  rcases hall with ((((h | h) | h) | h) | h)
  · exact Or.inl (Or.inl (Or.inl h))
  · exact Or.inl (Or.inl (Or.inr h))
  · exact Or.inl (Or.inr h)
  · exact Or.inr h
  · exact absurd h hup

lemma chain'_of_noDoubleDash (l : List Char) (h : noDoubleDash l = true) :
    l.Chain' (fun a b => ¬(a = '-' ∧ b = '-')) := by
  induction l with
  | nil => exact List.chain'_nil
  | cons c rest ih =>
    cases rest with
    | nil => exact List.chain'_singleton c
    | cons c₂ rest₂ =>
      simp only [noDoubleDash, Bool.and_eq_true, Bool.not_eq_true'] at h
      refine List.chain'_cons.mpr ⟨?_, ih h.2⟩
      intro hab
      have : (decide (c = '-') && decide (c₂ = '-')) = true := by
        simp [hab.1, hab.2]
      rw [h.1] at this
      cases this

lemma map_eq_self_of_id (f : Char → Char) (l : List Char)
    (h : ∀ c ∈ l, f c = c) : l.map f = l := by
  induction l with
  | nil => rfl
  | cons c cs ih =>
    simp only [List.map_cons]
    rw [h c (by simp), ih (fun x hx => h x (by simp [hx]))]

lemma headD_eq_of_mem_head? {l : List Char} {c : Char} (h : c ∈ l.head?) :
    l.headD 'x' = c := by
  cases l with
  | nil => simp at h
  | cons a as =>
    simp only [List.head?_cons, Option.mem_def, Option.some.injEq] at h
    simp [h]

lemma getLastD_eq_of_mem_getLast? {l : List Char} {c : Char}
    (h : c ∈ l.getLast?) : l.getLastD 'x' = c := by
  rw [List.getLastD_eq_getLast?, Option.mem_def.mp h]
  rfl

/-- C1: the coercion pipeline violates its own contract.  With no strategies
configured, the default fallback for a check named `"a" * 62` in environment
`"b"` is the 64-character candidate `"a"*62 + "-b"`; it fails validation, is
coerced, and `resolve_hostname` (with `coerce_into_valid_hostname` enabled)
returns `"a"*62 + "-"` — label truncation to 63 characters leaves a trailing
hyphen, so the returned hostname fails `is_rfc1123_hostname`. -/
theorem claim_C1 :
    resolve_hostname none none none none (List.replicate 62 'a') "b".data
        true true = .ok (List.replicate 62 'a' ++ ['-']) ∧
      is_rfc1123_hostname (List.replicate 62 'a' ++ '-' :: "b".data) = false ∧
      is_rfc1123_hostname (List.replicate 62 'a' ++ ['-']) = false := by
  refine ⟨rfl, by decide, by decide⟩

/-- C2: contrary to the claim, `coerce_to_rfc1123` is not the identity on
every valid hostname: `"A"` is RFC 1123-valid but is lowercased to `"a"`. -/
theorem claim_C2_counterexample :
    is_rfc1123_hostname "A".data = true ∧
      coerce_to_rfc1123 "A".data = .ok "a".data ∧ "a".data ≠ "A".data := by
  refine ⟨by decide, rfl, by decide⟩

/-- C2 (amended): `coerce_to_rfc1123` returns valid hostnames unchanged
provided they contain no ASCII uppercase letters (the pipeline lowercases)
and no two consecutive hyphens (the pipeline collapses `--` runs). -/
theorem claim_C2 (v : List Char)
    (hvalid : is_rfc1123_hostname v = true)
    (hlower : ∀ c ∈ v, ¬(65 ≤ c.toNat ∧ c.toNat ≤ 90))
    (hdash0 : noDoubleDash v = true) :
    coerce_to_rfc1123 v = .ok v := by
  have hdash := chain'_of_noDoubleDash v hdash0
  unfold is_rfc1123_hostname at hvalid
  have hfacts : v ≠ [] ∧ ¬ HOSTNAME_MAX < v.length ∧
      (∀ c ∈ v, allowedChar c = true) ∧
      (∀ l ∈ splitOnDot v, labelOk l = true) := by
    by_cases h1 : v = []
    · simp [h1] at hvalid
    · by_cases h2 : HOSTNAME_MAX < v.length
      · simp [h1, h2] at hvalid
      · rw [if_neg (by simp [h1, h2])] at hvalid
        rw [Bool.and_eq_true, List.all_eq_true, List.all_eq_true] at hvalid
        exact ⟨h1, h2, fun c hc => hvalid.1 c hc, fun l hl => hvalid.2 l hl⟩
  obtain ⟨hne, hlen, hall, hlab⟩ := hfacts
  have hlabelfacts : ∀ l ∈ splitOnDot v, l ≠ [] ∧ l.length ≤ LABEL_MAX ∧
      (∀ c ∈ l.head?, (decide (c = '-')) = false) ∧
      (∀ c ∈ l.getLast?, (decide (c = '-')) = false) ∧
      (∀ c ∈ l, c ≠ '.') := by
    intro l hl
    obtain ⟨hlne, hlen63, hhead, hlast, hmem⟩ := labelOk_facts l (hlab l hl)
    refine ⟨hlne, hlen63, ?_, ?_, fun c hc => alnum_or_dash_ne_dot (hmem c hc)⟩
    · intro c hc
      rw [headD_eq_of_mem_head? hc] at hhead
      simpa using pyIsAlnum_ne_dash hhead
    · intro c hc
      rw [getLastD_eq_of_mem_getLast? hc] at hlast
      simpa using pyIsAlnum_ne_dash hlast
  have hid1 : asciiIgnore v = v := by
    apply List.filter_eq_self.mpr
    intro c hc
    simpa using allowedChar_le127 (hall c hc)
  have hid2 : v.map lowerAscii = v := by
    apply map_eq_self_of_id
    intro c hc
    unfold lowerAscii
    rw [if_neg]
    simp only [Bool.and_eq_true, decide_eq_true_eq, not_and]
    intro h65 h90
    exact hlower c hc ⟨h65, h90⟩
  have hid3 : replaceRuns invalidChar '-' v = v := by
    apply replaceRuns_id
    · intro c hc habs
      rw [invalidChar_false (hall c hc) (hlower c hc)] at habs
      cases habs
    · exact chain'_of_not_mem _ _
        (fun c hc => invalidChar_false (hall c hc) (hlower c hc))
  have hid4 : replaceRuns (fun c => c = '.') '.' v = v := by
    apply replaceRuns_id
    · intro c _ hpc
      simpa using hpc
    · have hch := chain'_dotfree_joinDots (splitOnDot v)
        (fun l hl => (hlabelfacts l hl).1)
        (fun l hl c hc => (hlabelfacts l hl).2.2.2.2 c hc)
      rw [joinDots_splitOnDot] at hch
      exact hch.imp (fun hab => by simpa using hab)
  have hid5 : replaceRuns (fun c => c = '-') '-' v = v := by
    apply replaceRuns_id
    · intro c _ hpc
      simpa using hpc
    · exact hdash.imp (fun hab => by simpa using hab)
  have hid6 : cleanLabels (splitOnDot v) = splitOnDot v :=
    cleanLabels_id _ (fun l hl => ⟨(hlabelfacts l hl).1,
      (hlabelfacts l hl).2.1, (hlabelfacts l hl).2.2.1,
      (hlabelfacts l hl).2.2.2.1⟩)
  have hid7 : greedyTake (splitOnDot v) 0 true = splitOnDot v := by
    apply greedyTake_all
    rw [Nat.zero_add, weightAux_true_eq_length _ (splitOnDot_ne_nil v),
      joinDots_splitOnDot]
    omega
  unfold coerce_to_rfc1123
  rw [if_neg hne]
  dsimp only
  rw [hid1, hid2, hid3, hid4, hid5, hid6,
    if_neg (splitOnDot_ne_nil v), hid7, if_neg (splitOnDot_ne_nil v),
    joinDots_splitOnDot]

/-- Witness for C2 at the concrete valid, lowercase, `--`-free hostname
`"a-b.c09"`. -/
theorem claim_C2_witness :
    is_rfc1123_hostname "a-b.c09".data = true ∧
      coerce_to_rfc1123 "a-b.c09".data = .ok "a-b.c09".data :=
  ⟨by decide, claim_C2 "a-b.c09".data (by decide) (by decide) (by decide)⟩

lemma updateMap_same (m : Nat → Option KeyState) (key : Nat)
    (v : Option KeyState) : updateMap m key v key = v := by
  simp [updateMap]

lemma updateMap_other (m : Nat → Option KeyState) (key : Nat)
    (v : Option KeyState) (k : Nat) (h : k ≠ key) :
    updateMap m key v k = m k := by
  simp [updateMap, h]

lemma executorInv_init : ExecutorInv ExecutorState.init := by
  refine ⟨fun k ks h => ?_, fun k h hmem => ?_, ?_⟩
  · simp [ExecutorState.init] at h
  · simp [ExecutorState.init] at hmem
  · simp [ExecutorState.init]

lemma executorInv_submit (s : ExecutorState) (key : Nat) (resubmit : Bool)
    (hinv : ExecutorInv s) : ExecutorInv (s.submit key resubmit).2 := by
  obtain ⟨hkeys, hrun, hsnd⟩ := hinv
  unfold ExecutorState.submit
  dsimp only
  split
  · exact ⟨hkeys, hrun, hsnd⟩
  · dsimp only
    -- every handle anywhere in the state or running list is below the counter
    have hks_bound : ∀ h ∈ ((s.state key).getD ⟨[], []⟩).active_futures,
        h < s.next_handle := by
      cases hsk : s.state key with
      | none => simp [hsk]
      | some ks => simpa [hsk] using (hkeys key ks hsk).2.2.2
    have hks_fin_sub : ((s.state key).getD ⟨[], []⟩).finished_futures ⊆
        ((s.state key).getD ⟨[], []⟩).active_futures := by
      cases hsk : s.state key with
      | none => simp [hsk]
      | some ks => simpa [hsk] using (hkeys key ks hsk).1
    have hks_act_nodup : ((s.state key).getD ⟨[], []⟩).active_futures.Nodup := by
      cases hsk : s.state key with
      | none => simp [hsk]
      | some ks => simpa [hsk] using (hkeys key ks hsk).2.1
    have hks_fin_nodup : ((s.state key).getD ⟨[], []⟩).finished_futures.Nodup := by
      cases hsk : s.state key with
      | none => simp [hsk]
      | some ks => simpa [hsk] using (hkeys key ks hsk).2.2.1
    refine ⟨?_, ?_, ?_⟩
    · intro k ks hk
      dsimp only at hk ⊢
      by_cases hkk : k = key
      · subst hkk
        rw [updateMap_same] at hk
        injection hk with hk
        subst hk
        dsimp only
        refine ⟨?_, ?_, hks_fin_nodup, ?_⟩
        · exact fun x hx => List.mem_append_left _ (hks_fin_sub hx)
        · rw [List.nodup_append]
          refine ⟨hks_act_nodup, List.nodup_singleton _, ?_⟩
          intro x hx
          simp only [List.mem_singleton]
          intro hxeq
          subst hxeq
          exact absurd (hks_bound _ hx) (lt_irrefl _)
        · intro h hh
          rcases List.mem_append.mp hh with h1 | h1
          · exact Nat.lt_succ_of_lt (hks_bound h h1)
          · simp only [List.mem_singleton] at h1
            subst h1
            exact Nat.lt_succ_self _
      · rw [updateMap_other _ _ _ _ hkk] at hk
        obtain ⟨h1, h2, h3, h4⟩ := hkeys k ks hk
        exact ⟨h1, h2, h3, fun h hh => Nat.lt_succ_of_lt (h4 h hh)⟩
    · intro k h hmem
      dsimp only at hmem ⊢
      rcases List.mem_append.mp hmem with hold | hnew
      · obtain ⟨hb, ks, hks, hact, hfin⟩ := hrun k h hold
        refine ⟨Nat.lt_succ_of_lt hb, ?_⟩
        by_cases hkk : k = key
        · subst hkk
          rw [hks] at hks_bound hks_fin_sub hks_act_nodup hks_fin_nodup ⊢
          refine ⟨_, updateMap_same .., ?_, ?_⟩
          · exact List.mem_append_left _ (by simpa using hact)
          · simpa using hfin
        · exact ⟨ks, by rw [updateMap_other _ _ _ _ hkk]; exact hks, hact, hfin⟩
      · simp only [List.mem_singleton, Prod.mk.injEq] at hnew
        obtain ⟨hk, hh⟩ := hnew
        subst hk
        subst hh
        refine ⟨Nat.lt_succ_self _, _, updateMap_same .., ?_, ?_⟩
        · exact List.mem_append_right _ (List.mem_singleton_self _)
        · intro hmem'
          exact absurd (hks_bound _ (hks_fin_sub hmem')) (lt_irrefl _)
    · dsimp only
      rw [List.map_append, List.nodup_append]
      refine ⟨hsnd, List.nodup_singleton _, ?_⟩
      intro x hx
      simp only [List.map_cons, List.map_nil, List.mem_singleton]
      intro hxeq
      subst hxeq
      obtain ⟨p, hp, hps⟩ := List.mem_map.mp hx
      have := (hrun p.1 p.2 (by simpa using hp)).1
      omega

lemma executorInv_doneCallback (s : ExecutorState) (key h : Nat)
    (hmem : (key, h) ∈ s.running) (hinv : ExecutorInv s) :
    ExecutorInv (s.doneCallback key h) := by
  obtain ⟨hkeys, hrun, hsnd⟩ := hinv
  obtain ⟨hb, ks0, hks0, hact0, hfin0⟩ := hrun key h hmem
  have hrun_nodup : s.running.Nodup := hsnd.of_map _
  unfold ExecutorState.doneCallback
  rw [hks0]
  dsimp only
  refine ⟨?_, ?_, ?_⟩
  · intro k ks hk
    dsimp only at hk ⊢
    by_cases hkk : k = key
    · subst hkk
      rw [updateMap_same] at hk
      injection hk with hk
      subst hk
      obtain ⟨hsub, hand, hfnd, hbnd⟩ := hkeys _ _ hks0
      refine ⟨?_, hand, ?_, hbnd⟩
      · intro x hx
        rcases List.mem_append.mp hx with h1 | h1
        · exact hsub h1
        · simp only [List.mem_singleton] at h1
          subst h1
          exact hact0
      · rw [List.nodup_append]
        refine ⟨hfnd, List.nodup_singleton _, ?_⟩
        intro x hx
        simp only [List.mem_singleton]
        intro hxe
        subst hxe
        exact hfin0 hx
    · rw [updateMap_other _ _ _ _ hkk] at hk
      exact hkeys k ks hk
  · intro k h₂ hmem₂
    dsimp only at hmem₂ ⊢
    have hmem₂' : (k, h₂) ∈ s.running := List.mem_of_mem_erase hmem₂
    obtain ⟨hb₂, ks₂, hks₂, hact₂, hfin₂⟩ := hrun k h₂ hmem₂'
    refine ⟨hb₂, ?_⟩
    by_cases hkk : k = key
    · subst hkk
      have he : ks₂ = ks0 := by
        rw [hks₂] at hks0
        injection hks0
      subst he
      refine ⟨_, updateMap_same .., hact₂, ?_⟩
      have hne : h₂ ≠ h := by
        intro he2
        have hp : (k, h₂) = (k, h) := by rw [he2]
        rw [hp] at hmem₂
        exact (hrun_nodup.mem_erase_iff.mp hmem₂).1 rfl
      intro hx
      rcases List.mem_append.mp hx with h1 | h1
      · exact hfin₂ h1
      · simp only [List.mem_singleton] at h1
        exact hne h1
    · refine ⟨ks₂, ?_, hact₂, hfin₂⟩
      rw [updateMap_other _ _ _ _ hkk]
      exact hks₂
  · dsimp only
    exact List.Nodup.sublist ((List.erase_sublist _ _).map _) hsnd

lemma executorInv_result (s : ExecutorState) (key : Nat)
    (hinv : ExecutorInv s) : ExecutorInv (s.result key).2 := by
  obtain ⟨hkeys, hrun, hsnd⟩ := hinv
  unfold ExecutorState.result
  cases hks : s.state key with
  | none => exact ⟨hkeys, hrun, hsnd⟩
  | some ks =>
    dsimp only
    cases hfin : ks.finished_futures with
    | nil =>
      by_cases hae : ks.active_futures = []
      · rw [if_pos hae]
        exact ⟨hkeys, hrun, hsnd⟩
      · rw [if_neg hae]
        exact ⟨hkeys, hrun, hsnd⟩
    | cons f rest =>
      obtain ⟨hsub, hand, hfnd, hbnd⟩ := hkeys key ks hks
      rw [hfin] at hsub hfnd
      have hfact : f ∈ ks.active_futures := hsub (by simp)
      have hfrest : f ∉ rest := (List.nodup_cons.mp hfnd).1
      have hrest_nodup := (List.nodup_cons.mp hfnd).2
      dsimp only
      by_cases hempty : ks.active_futures.erase f = []
      · -- the last active handle was picked up: the key's state is dropped
        rw [if_pos hempty]
        refine ⟨?_, ?_, hsnd⟩
        · intro k ks₂ hk
          dsimp only at hk ⊢
          by_cases hkk : k = key
          · subst hkk
            rw [updateMap_same] at hk
            cases hk
          · rw [updateMap_other _ _ _ _ hkk] at hk
            exact hkeys k ks₂ hk
        · intro k h₂ hmem₂
          dsimp only at hmem₂ ⊢
          obtain ⟨hb₂, ks₂, hks₂, hact₂, hfin₂⟩ := hrun k h₂ hmem₂
          refine ⟨hb₂, ?_⟩
          by_cases hkk : k = key
          · subst hkk
            have he : ks₂ = ks := by
              rw [hks₂] at hks
              injection hks
            rw [he] at hact₂ hfin₂
            rw [hfin] at hfin₂
            have hne : h₂ ≠ f := by
              intro he2
              subst he2
              exact hfin₂ (by simp)
            have hin : h₂ ∈ ks.active_futures.erase f :=
              (List.mem_erase_of_ne hne).mpr hact₂
            rw [hempty] at hin
            cases hin
          · refine ⟨ks₂, ?_, hact₂, hfin₂⟩
            rw [updateMap_other _ _ _ _ hkk]
            exact hks₂
      · -- other handles remain active for the key
        rw [if_neg hempty]
        refine ⟨?_, ?_, hsnd⟩
        · intro k ks₂ hk
          dsimp only at hk ⊢
          by_cases hkk : k = key
          · subst hkk
            rw [updateMap_same] at hk
            injection hk with hk
            subst hk
            refine ⟨?_, hand.erase f, hrest_nodup, ?_⟩
            · intro x hx
              have hxact : x ∈ ks.active_futures := hsub (by simp [hx])
              have hxf : x ≠ f := by
                intro he
                subst he
                exact hfrest hx
              exact (List.mem_erase_of_ne hxf).mpr hxact
            · intro x hx
              exact hbnd x (List.mem_of_mem_erase hx)
          · rw [updateMap_other _ _ _ _ hkk] at hk
            exact hkeys k ks₂ hk
        · intro k h₂ hmem₂
          dsimp only at hmem₂ ⊢
          obtain ⟨hb₂, ks₂, hks₂, hact₂, hfin₂⟩ := hrun k h₂ hmem₂
          refine ⟨hb₂, ?_⟩
          by_cases hkk : k = key
          · subst hkk
            have he : ks₂ = ks := by
              rw [hks₂] at hks
              injection hks
            rw [he] at hact₂ hfin₂
            rw [hfin] at hfin₂
            have hne : h₂ ≠ f := by
              intro he2
              subst he2
              exact hfin₂ (by simp)
            refine ⟨_, updateMap_same .., (List.mem_erase_of_ne hne).mpr hact₂, ?_⟩
            intro hx
            exact hfin₂ (by simp [hx])
          · refine ⟨ks₂, ?_, hact₂, hfin₂⟩
            rw [updateMap_other _ _ _ _ hkk]
            exact hks₂

lemma executorInv_step {s s' : ExecutorState} (hstep : ExecutorStep s s')
    (hinv : ExecutorInv s) : ExecutorInv s' := by
  cases hstep with
  | submit key resubmit => exact executorInv_submit _ key resubmit hinv
  | complete key h hmem => exact executorInv_doneCallback _ key h hmem hinv
  | result key => exact executorInv_result _ key hinv

lemma reachable_executorInv {s : ExecutorState} (h : ReachableExecutor s) :
    ExecutorInv s := by
  induction h with
  | refl => exact executorInv_init
  | tail _ hstep ih => exact executorInv_step hstep ih

lemma headD_mem {l : List Nat} (h : l ≠ []) (d : Nat) : l.headD d ∈ l := by
  cases l with
  | nil => exact absurd rfl h
  | cons a as => simp

/-- C9: on one executor, two consecutive `submit(key, ...)` calls with
`resubmit=false` return the same handle and leave the state of the second
call identical to the first (so at most one job is started — exactly one
when the key was fresh); a second call with `resubmit=true` returns a
distinct handle and starts one more job (the started-jobs counter
increments). -/
theorem claim_C9 (s : ExecutorState) (key : Nat) (hs : ReachableExecutor s) :
    ((s.submit key false).2.submit key false).1 = (s.submit key false).1 ∧
    ((s.submit key false).2.submit key false).2 = (s.submit key false).2 ∧
    (s.submit key false).2.next_handle ≤ s.next_handle + 1 ∧
    (s.state key = none →
      (s.submit key false).2.next_handle = s.next_handle + 1) ∧
    ((s.submit key false).2.submit key true).1 ≠ (s.submit key false).1 ∧
    ((s.submit key false).2.submit key true).2.next_handle =
      (s.submit key false).2.next_handle + 1 := by
  obtain ⟨hkeys, hrun, hsnd⟩ := reachable_executorInv hs
  by_cases hact : ((s.state key).getD ⟨[], []⟩).active_futures = []
  · -- no active job: the first call starts a fresh one
    have hsub1 : s.submit key false = (s.next_handle,
        { state := updateMap s.state key
            (some ⟨((s.state key).getD ⟨[], []⟩).active_futures ++
              [s.next_handle],
              ((s.state key).getD ⟨[], []⟩).finished_futures⟩)
          next_handle := s.next_handle + 1
          running := s.running ++ [(key, s.next_handle)] }) := by
      unfold ExecutorState.submit
      rw [if_neg (by simp [hact])]
    set s₁ := (s.submit key false).2 with hs₁def
    have hstate1 : s₁.state key =
        some ⟨[s.next_handle],
          ((s.state key).getD ⟨[], []⟩).finished_futures⟩ := by
      rw [hs₁def, hsub1]
      dsimp only
      rw [updateMap_same, hact]
      rfl
    have hnext1 : s₁.next_handle = s.next_handle + 1 := by
      rw [hs₁def, hsub1]
    have hsub2 : s₁.submit key false = (s.next_handle, s₁) := by
      unfold ExecutorState.submit
      rw [hstate1]
      dsimp only
      rw [if_pos (by simp)]
      rfl
    have hsub3 : (s₁.submit key true).1 = s₁.next_handle ∧
        (s₁.submit key true).2.next_handle = s₁.next_handle + 1 := by
      unfold ExecutorState.submit
      rw [hstate1]
      dsimp only
      rw [if_neg (by simp)]
      exact ⟨rfl, rfl⟩
    refine ⟨?_, ?_, ?_, ?_, ?_, ?_⟩
    · rw [hsub2, hsub1]
    · rw [hsub2]
    · rw [hnext1]
    · intro _
      rw [hnext1]
    · rw [hsub3.1, hnext1, hsub1]
      dsimp only
      omega
    · rw [hsub3.2]
  · -- a job is already active: both calls return the first active handle
    have hsub1 : s.submit key false =
        (((s.state key).getD ⟨[], []⟩).active_futures.headD 0, s) := by
      unfold ExecutorState.submit
      rw [if_pos (by simp [hact])]
    have hks : ∃ ks, s.state key = some ks := by
      cases hsk : s.state key with
      | none => rw [hsk] at hact; simp at hact
      | some ks => exact ⟨ks, rfl⟩
    obtain ⟨ks, hks⟩ := hks
    have hbound : ((s.state key).getD ⟨[], []⟩).active_futures.headD 0 <
        s.next_handle := by
      have hmem := headD_mem hact 0
      rw [hks] at hmem ⊢
      exact (hkeys key ks hks).2.2.2 _ hmem
    have hsub3 : (s.submit key true).1 = s.next_handle ∧
        (s.submit key true).2.next_handle = s.next_handle + 1 := by
      unfold ExecutorState.submit
      rw [if_neg (by simp)]
      exact ⟨rfl, rfl⟩
    refine ⟨?_, ?_, ?_, ?_, ?_, ?_⟩
    · rw [hsub1]
      dsimp only
      rw [hsub1]
    · rw [hsub1]
      dsimp only
      rw [hsub1]
    · rw [hsub1]
      dsimp only
      omega
    · intro habs
      rw [habs] at hact
      simp at hact
    · rw [hsub1]
      dsimp only
      rw [hsub3.1]
      omega
    · rw [hsub1]
      dsimp only
      rw [hsub3.2]

/-- Witness for C9 on a fresh executor and key `0`. -/
theorem claim_C9_witness :
    ((ExecutorState.init.submit 0 false).2.submit 0 false).1 =
        (ExecutorState.init.submit 0 false).1 ∧
      ((ExecutorState.init.submit 0 false).2.submit 0 false).2 =
        (ExecutorState.init.submit 0 false).2 ∧
      (ExecutorState.init.submit 0 false).2.next_handle ≤
        ExecutorState.init.next_handle + 1 ∧
      (ExecutorState.init.state 0 = none →
        (ExecutorState.init.submit 0 false).2.next_handle =
          ExecutorState.init.next_handle + 1) ∧
      ((ExecutorState.init.submit 0 false).2.submit 0 true).1 ≠
        (ExecutorState.init.submit 0 false).1 ∧
      ((ExecutorState.init.submit 0 false).2.submit 0 true).2.next_handle =
        (ExecutorState.init.submit 0 false).2.next_handle + 1 :=
  claim_C9 ExecutorState.init 0 Relation.ReflTransGen.refl

/-- C10: in every reachable executor state the finished queue of a key is a
sub-collection (subpermutation) of its active list; a completion callback
never changes any active list; `submit(key, resubmit=false)` returns the
first active handle — in particular an already-completed one — without
changing the state while a finished result awaits pickup; and picking up
the last active handle of a key drops the key's state, so the next
`result(key)` raises `KeyError`. -/
theorem claim_C10 (s : ExecutorState) (hs : ReachableExecutor s) :
    (∀ k ks, s.state k = some ks →
      List.Subperm ks.finished_futures ks.active_futures) ∧
    (∀ key h k,
      ((s.doneCallback key h).state k).map KeyState.active_futures =
        (s.state k).map KeyState.active_futures) ∧
    (∀ key ks h, s.state key = some ks → h ∈ ks.finished_futures →
      s.submit key false = (ks.active_futures.headD 0, s)) ∧
    (∀ key ks h, s.state key = some ks → ks.active_futures = [h] →
      ks.finished_futures ≠ [] →
      (s.result key).1 = .value h ∧
      ((s.result key).2.result key).1 = .keyError) := by
  obtain ⟨hkeys, hrun, hsnd⟩ := reachable_executorInv hs
  refine ⟨?_, ?_, ?_, ?_⟩
  · intro k ks hk
    obtain ⟨hsub, _, hfnd, _⟩ := hkeys k ks hk
    exact hfnd.subperm hsub
  · intro key h k
    unfold ExecutorState.doneCallback
    cases hks : s.state key with
    | none => rfl
    | some ks =>
      dsimp only
      by_cases hkk : k = key
      · subst hkk
        rw [updateMap_same, hks]
        rfl
      · rw [updateMap_other _ _ _ _ hkk]
  · intro key ks h hks hfin
    obtain ⟨hsub, _, _, _⟩ := hkeys key ks hks
    have hane : ks.active_futures ≠ [] := by
      intro hnil
      have hh := hsub hfin
      rw [hnil] at hh
      cases hh
    unfold ExecutorState.submit
    rw [hks]
    dsimp only
    rw [if_pos (by simp [hane])]
    rfl
  · intro key ks h hks hact hfinne
    obtain ⟨hsub, _, _, _⟩ := hkeys key ks hks
    have hres : s.result key =
        (.value h, { s with state := updateMap s.state key none }) := by
      unfold ExecutorState.result
      rw [hks]
      dsimp only
      cases hfin2 : ks.finished_futures with
      | nil => exact absurd hfin2 hfinne
      | cons f rest =>
        have hmemf : f ∈ ks.finished_futures := by
          rw [hfin2]
          simp
        have hf : f = h := by
          have hmem := hsub hmemf
          rw [hact] at hmem
          simpa using hmem
        have herase : ([h] : List Nat).erase h = [] := by simp
        dsimp only
        rw [hact, hf, herase]
        rw [if_pos rfl]
    refine ⟨by rw [hres], ?_⟩
    rw [hres]
    unfold ExecutorState.result
    dsimp only
    rw [updateMap_same]

/-- Witness for C10 on the reachable state produced by one `submit` for key
`0` followed by its completion callback. -/
theorem claim_C10_witness :
    ((ExecutorState.init.submit 0 false).2.doneCallback 0 0).submit 0 false =
        (([0] : List Nat).headD 0,
          (ExecutorState.init.submit 0 false).2.doneCallback 0 0) ∧
      ((((ExecutorState.init.submit 0 false).2.doneCallback 0 0).result 0).1 =
        ResultOutcome.value 0) ∧
      (((((ExecutorState.init.submit 0 false).2.doneCallback 0 0).result
          0).2.result 0).1 = ResultOutcome.keyError) := by
  have hreach : ReachableExecutor
      ((ExecutorState.init.submit 0 false).2.doneCallback 0 0) :=
    Relation.ReflTransGen.tail
      (Relation.ReflTransGen.tail Relation.ReflTransGen.refl
        (ExecutorStep.submit ExecutorState.init 0 false))
      (ExecutorStep.complete _ 0 0 (by decide))
  have H := claim_C10 _ hreach
  refine ⟨H.2.2.1 0 ⟨[0], [0]⟩ 0 rfl (by decide), ?_, ?_⟩
  · exact (H.2.2.2 0 ⟨[0], [0]⟩ 0 rfl rfl (by decide)).1
  · exact (H.2.2.2 0 ⟨[0], [0]⟩ 0 rfl rfl (by decide)).2

end Watchpost
